import Mathlib

/-!
Verification of the fixed-point EMA crossover HW/SW parity checker
(`python_version/check_match.py` and `python_version/crossover_strategy.py`).

The Python code is shallowly embedded. In `check_match.py` the prices are
materialized as `np.int64` (`to_numpy(dtype=np.int64)`, line 60), so the
EMA recurrence `avg += (x - avg) >> alpha_sh` runs in wrapping signed
64-bit arithmetic: the machine-accurate model is `emaStep64`/`ema_q16_i64`,
where both the delta subtraction and the final addition wrap modulo `2^64`
(`wrap64`) and `>>` is `Int`'s bitwise `>>>` (two's-complement arithmetic
shift). `emaStep`/`ema_q16` are the exact-integer idealization of the same
recurrence; `ema_q16_i64_eq_exact` proves the two models coincide whenever
no update can overflow (all values within half the int64 range), which is
the regime of every claim stated over the idealization (constant inputs,
structural tick/length facts, and small Q16.16 prices).

Lists and pandas DataFrames of (tick, signal) rows become
`List (Nat × Int)`; the regex line matcher of `read_hw_log` is implemented
character-by-character with the same leftmost-match, greedy semantics;
`pandas.merge(.., how="inner")` keeps the order of the left frame's keys,
which `mergeTraces` reproduces.
-/

namespace CheckMatch

/-- Fast EMA shift, `FAST_SH = 1` in check_match.py. -/
def FAST_SH : Nat := 1

/-- Slow EMA shift, `SLOW_SH = 6` in check_match.py. -/
def SLOW_SH : Nat := 6

/-- Q16.16 scale factor, `SCALE = 1 << 16` in crossover_strategy.py. -/
def SCALE : Int := (1 : Int) <<< (16 : Int)

/-- Two's-complement wrap of an integer into the signed 64-bit range
`[-2^63, 2^63)`: the overflow behavior of numpy `int64` arithmetic. -/
def wrap64 (z : Int) : Int := (z + 2 ^ 63) % 2 ^ 64 - 2 ^ 63

/-- Membership in the signed 64-bit range, the domain of `np.int64` values. -/
def inInt64 (z : Int) : Prop := -(2 ^ 63) ≤ z ∧ z < 2 ^ 63

instance : DecidablePred inInt64 := fun z =>
  inferInstanceAs (Decidable (-(2 ^ 63) ≤ z ∧ z < 2 ^ 63))

/-- Half of the signed 64-bit range. When every price lies here, no delta
subtraction or average update of the EMA can overflow an `int64`. -/
def inHalf (z : Int) : Prop := -(2 ^ 62) ≤ z ∧ z ≤ 2 ^ 62 - 1

instance : DecidablePred inHalf := fun z =>
  inferInstanceAs (Decidable (-(2 ^ 62) ≤ z ∧ z ≤ 2 ^ 62 - 1))

/-- One initialized-state update of `ema_q16` on `np.int64` operands,
`avg = avg + ((x - avg) >> alpha_sh)`: the delta subtraction and the final
addition wrap modulo `2^64`; the shift of an in-range value is in range, so
it needs no wrap of its own. -/
def emaStep64 (avg x : Int) (alpha_sh : Nat) : Int :=
  wrap64 (avg + (wrap64 (x - avg) >>> (alpha_sh : Int)))

/-- The loop of `ema_q16` on `np.int64` operands after the average has been
seeded. -/
def emaGo64 (alpha_sh : Nat) (avg : Int) : List Int → List Int
  | [] => []
  | x :: xs => emaStep64 avg x alpha_sh :: emaGo64 alpha_sh (emaStep64 avg x alpha_sh) xs

/-- Machine-accurate `ema_q16(q16_prices, alpha_sh)`: the input prices are
`int64` values (the dtype of the array); the first seeds the average
(`avg is None` branch), every later one updates it in wrapping int64
arithmetic. -/
def ema_q16_i64 (q16_prices : List Int) (alpha_sh : Nat) : List Int :=
  match q16_prices with
  | [] => []
  | x :: xs => x :: emaGo64 alpha_sh x xs

/-- Exact-integer idealization of one initialized-state update of
`ema_q16`, `avg = avg + ((x - avg) >> alpha_sh)` with no wrapping. It
agrees with the machine model `emaStep64` whenever no int64 overflow
occurs (`emaStep64_eq_exact`). -/
def emaStep (avg x : Int) (alpha_sh : Nat) : Int :=
  avg + ((x - avg) >>> (alpha_sh : Int))

/-- The loop of the exact-integer EMA after the average has been seeded. -/
def emaGo (alpha_sh : Nat) (avg : Int) : List Int → List Int
  | [] => []
  | x :: xs => emaStep avg x alpha_sh :: emaGo alpha_sh (emaStep avg x alpha_sh) xs

/-- Exact-integer idealization of `ema_q16(q16_prices, alpha_sh)`. It
agrees with the machine model `ema_q16_i64` on every input sequence whose
values lie in half the int64 range (`ema_q16_i64_eq_exact`), which covers
all Q16.16 price data by a wide margin. -/
def ema_q16 (q16_prices : List Int) (alpha_sh : Nat) : List Int :=
  match q16_prices with
  | [] => []
  | x :: xs => x :: emaGo alpha_sh x xs

/-- The signal classification in `main`: `f > s → 1` (BUY), `f < s → -1`
(SELL), otherwise `0` (HOLD). -/
def classify (f s : Int) : Int :=
  if f > s then 1 else if f < s then -1 else 0

/-- The software trace built in `main`: classify the zipped fast/slow EMA
streams and attach ticks `range(1, len(sw_sig) + 1)`. -/
def softwareTrace (q16_prices : List Int) (fast_sh slow_sh : Nat) :
    List (Nat × Int) :=
  let fast := ema_q16 q16_prices fast_sh
  let slow := ema_q16 q16_prices slow_sh
  let sw_sig := List.zipWith classify fast slow
  (List.range' 1 sw_sig.length).zip sw_sig

/-- Python regex `\s` (ASCII range): space, tab, newline, CR, VT, FF. -/
def isSpaceChar (c : Char) : Bool :=
  (c == ' ') || (c == '\t') || (c == '\n') || (c == '\r') ||
  (c == '\x0b') || (c == '\x0c')

/-- Numeric value of a digit character. -/
def digitVal (c : Char) : Nat := c.toNat - '0'.toNat

/-- Decimal value of a digit string, as `int()` applied to a regex group. -/
def natOfDigits (ds : List Char) : Nat :=
  ds.foldl (fun n c => 10 * n + digitVal c) 0

/-- Consume an exact literal from the front of the character stream. -/
def stripLit : List Char → List Char → Option (List Char)
  | [], cs => some cs
  | _ :: _, [] => none
  | l :: ls, c :: cs => if c = l then stripLit ls cs else none

/-- Match the regex `tick\s+(\d+)\s*->\s*signal=(\d+)` anchored at the head
of the character stream, returning the two captured groups. The character
classes of the pattern are pairwise disjoint with the following literals, so
greedy maximal munch is exact. -/
def matchTickAt (cs : List Char) : Option (Nat × Nat) := do
  let cs ← stripLit ['t', 'i', 'c', 'k'] cs
  let (ws, cs) := cs.span isSpaceChar
  if ws.isEmpty then none else do
  let (ds, cs) := cs.span Char.isDigit
  if ds.isEmpty then none else do
  let (_, cs) := cs.span isSpaceChar
  let cs ← stripLit ['-', '>'] cs
  let (_, cs) := cs.span isSpaceChar
  let cs ← stripLit ['s', 'i', 'g', 'n', 'a', 'l', '='] cs
  let (ds2, _) := cs.span Char.isDigit
  if ds2.isEmpty then none else
  some (natOfDigits ds, natOfDigits ds2)

/-- Model of `re.search` for the tick pattern: try every start position
left to right, returning the leftmost match. -/
def searchTick : List Char → Option (Nat × Nat)
  | [] => none
  | c :: cs =>
    match matchTickAt (c :: cs) with
    | some r => some r
    | none => searchTick cs

/-- Signal-code decoding in `read_hw_log`: `3 → -1` (SELL), `1 → 1` (BUY),
anything else `→ 0` (HOLD). -/
def decodeSignal (s : Nat) : Int :=
  if s = 3 then -1 else if s = 1 then 1 else 0

/-- The `rows` list accumulated by `read_hw_log` before de-duplication:
one decoded `(tick, hw_sig)` pair per line the regex matches. -/
def rawRows (lines : List String) : List (Nat × Int) :=
  lines.filterMap fun line =>
    (searchTick line.toList).map fun p => (p.1, decodeSignal p.2)

/-- Model of `DataFrame.drop_duplicates("tick")`: keep the first row seen
for each tick, preserving order. -/
def dedupGo (seen : List Nat) : List (Nat × Int) → List (Nat × Int)
  | [] => []
  | r :: rest =>
    if r.1 ∈ seen then dedupGo seen rest
    else r :: dedupGo (r.1 :: seen) rest

/-- The hardware-log parser `read_hw_log`: parse the log lines and
de-duplicate by tick. -/
def read_hw_log (lines : List String) : List (Nat × Int) :=
  dedupGo [] (rawRows lines)

/-- The comparison report computed in `main`: compared-tick count, match
count, mismatch rows and the full merged table. -/
structure ParityReport where
  compared : Nat
  matchCount : Nat
  mismatches : List (Nat × Int × Int)
  table : List (Nat × Int × Int)
deriving Repr, DecidableEq

/-- Model of `pd.merge(hw, sw, on="tick", how="inner")`: rows for ticks
present in both traces, in the order of the left (hardware) trace's keys. -/
def mergeTraces (hw sw : List (Nat × Int)) : List (Nat × Int × Int) :=
  hw.filterMap fun r => (sw.lookup r.1).map fun s => (r.1, r.2, s)

/-- The comparison in `main`: `none` models the early return on
`len(merged) == 0` (the "No overlapping ticks found" report). -/
def compareTraces (hw sw : List (Nat × Int)) : Option ParityReport :=
  let merged := mergeTraces hw sw
  if merged.isEmpty then none
  else
    some ⟨merged.length,
          (merged.filter fun r => r.2.1 == r.2.2).length,
          merged.filter (fun r => !(r.2.1 == r.2.2)),
          merged⟩

/-- The match rate `acc = merged["match"].mean() * 100`, kept exact in `ℚ`. -/
def matchRate (r : ParityReport) : ℚ :=
  (r.matchCount : ℚ) / (r.compared : ℚ) * 100

/-- The bitwise arithmetic right shift on `Int` is floor division by the
corresponding power of two. -/
theorem shiftRight_eq_fdiv (d : ℤ) (n : ℕ) :
    d >>> (n : ℤ) = Int.fdiv d ((2 : ℤ) ^ n) := by
  have h2 : ((2 : ℤ) ^ n) = ((2 ^ n : ℕ) : ℤ) := by push_cast; rfl
  cases d with
  | ofNat m =>
      rw [h2, Int.ofNat_eq_coe, Int.shiftRight_coe_nat, Nat.shiftRight_eq_div_pow,
        Int.ofNat_fdiv]
  | negSucc m =>
      rw [h2, Int.shiftRight_negSucc, Nat.shiftRight_eq_div_pow]
      obtain ⟨k, hk⟩ : ∃ k, 2 ^ n = k + 1 :=
        ⟨2 ^ n - 1, (Nat.succ_pred_eq_of_pos (Nat.pos_pow_of_pos n (by norm_num))).symm⟩
      rw [hk]
      rfl

/-- The bitwise arithmetic right shift on `Int` rounds the exact quotient
toward negative infinity. -/
theorem shiftRight_eq_floor (d : ℤ) (n : ℕ) :
    d >>> (n : ℤ) = ⌊(d : ℚ) / ((2 : ℚ) ^ n)⌋ := by
  rw [shiftRight_eq_fdiv, Int.fdiv_eq_ediv _ (by positivity)]
  have h := Rat.floor_intCast_div_natCast d (2 ^ n)
  push_cast at h
  rw [h]

/-- Wrapping is the identity on values already in the int64 range. -/
theorem wrap64_eq_self (z : Int) (h : inInt64 z) : wrap64 z = z := by
  obtain ⟨h1, h2⟩ := h
  have hpow : (2 : ℤ) ^ 63 + 2 ^ 63 = 2 ^ 64 := by norm_num
  rw [wrap64, Int.emod_eq_of_lt (by linarith) (by linarith)]
  ring

/-- C1 counterexample: at the reachable state `avg = 2^62` (seeded by the
first price) with input `x = -2^62 - 2` and shift 1, the delta
`x - avg = -2^63 - 2` is negative, yet the program's wrapped arithmetic
yields `2^63 - 1`, not `avg + floor((x - avg) / 2)` which is `-1`. -/
theorem ema_update_wrap_cex :
    ((-(2 : Int) ^ 62 - 2) - 2 ^ 62 < 0) ∧
    emaStep64 ((2 : Int) ^ 62) (-(2 : Int) ^ 62 - 2) 1 = 2 ^ 63 - 1 ∧
    (2 : Int) ^ 62 + Int.fdiv ((-(2 : Int) ^ 62 - 2) - 2 ^ 62) ((2 : ℤ) ^ 1) = -1 ∧
    ((2 : Int) ^ 63 - 1 : Int) ≠ -1 := by
  refine ⟨by decide, by decide, by decide, by decide⟩

/-- C1 amended: the EMA update applies a sign-preserving arithmetic right
shift to the wrapped 64-bit delta — for every state `avg` and input `x`
with `wrap64 (x - avg)` negative, the new average is the int64 wrap of
`avg` plus the floor (toward negative infinity, not a truncated quotient)
of `wrap64 (x - avg) / 2 ^ shift`; whenever `x - avg` is itself
representable and the update does not overflow, this equals
`avg + floor((x - avg) / 2 ^ shift)` exactly. -/
theorem ema_update_floor_shift_i64 (avg x : Int) (sh : Nat)
    (hneg : wrap64 (x - avg) < 0) :
    emaStep64 avg x sh =
      wrap64 (avg + Int.fdiv (wrap64 (x - avg)) ((2 : ℤ) ^ sh)) ∧
    Int.fdiv (wrap64 (x - avg)) ((2 : ℤ) ^ sh) =
      ⌊((wrap64 (x - avg) : ℤ) : ℚ) / ((2 : ℚ) ^ sh)⌋ ∧
    (inInt64 (x - avg) → inInt64 (avg + Int.fdiv (x - avg) ((2 : ℤ) ^ sh)) →
      emaStep64 avg x sh = avg + Int.fdiv (x - avg) ((2 : ℤ) ^ sh)) := by
  refine ⟨by rw [emaStep64, shiftRight_eq_fdiv],
          by rw [← shiftRight_eq_fdiv, shiftRight_eq_floor], ?_⟩
  intro h1 h2
  rw [emaStep64, wrap64_eq_self _ h1, shiftRight_eq_fdiv, wrap64_eq_self _ h2]

/-- Witness for the amended C1 at `avg = 100·65536`, `x = 90·65536`,
`shift = 1`: no wrap occurs and the shifted delta is `-327680`. -/
theorem ema_update_floor_shift_i64_witness :
    wrap64 ((90 * 65536 : Int) - 100 * 65536) < 0 ∧
    emaStep64 (100 * 65536) (90 * 65536) 1 =
      100 * 65536 + Int.fdiv (90 * 65536 - 100 * 65536) ((2 : ℤ) ^ 1) ∧
    Int.fdiv ((90 * 65536 : Int) - 100 * 65536) ((2 : ℤ) ^ 1) = -327680 :=
  ⟨by decide,
   (ema_update_floor_shift_i64 (100 * 65536) (90 * 65536) 1 (by decide)).2.2
     (by decide) (by decide),
   by decide⟩

/-- C2: on hw trace `{1:+1, 2:-1, 3:0}` and sw trace `{2:-1, 3:+1, 4:0}` the
comparator compares exactly ticks 2 and 3, finds 1 match, one mismatch
`(3, HOLD, BUY)`, and a match rate of exactly 50%. -/
theorem compare_example :
    compareTraces [(1, 1), (2, -1), (3, 0)] [(2, -1), (3, 1), (4, 0)] =
      some (⟨2, 1, [(3, 0, 1)], [(2, -1, -1), (3, 0, 1)]⟩ : ParityReport) ∧
    (compareTraces [(1, 1), (2, -1), (3, 0)] [(2, -1), (3, 1), (4, 0)]).map matchRate =
      some 50 := by
  refine ⟨by decide, ?_⟩
  have h : compareTraces [(1, 1), (2, -1), (3, 0)] [(2, -1), (3, 1), (4, 0)] =
      some (⟨2, 1, [(3, 0, 1)], [(2, -1, -1), (3, 0, 1)]⟩ : ParityReport) := by decide
  rw [h]
  norm_num [Option.map_some', matchRate]

/-- Updating an initialized average with its own value leaves it unchanged. -/
theorem emaStep_self (c : Int) (sh : Nat) : emaStep c c sh = c := by
  rw [emaStep, sub_self, Int.zero_shiftRight', add_zero]

/-- C3: for every shift, the EMA over a constant input sequence converges
immediately — every running average equals the constant. -/
theorem ema_constant_converges (n : Nat) (c : Int) (sh : Nat) :
    ema_q16 (List.replicate n c) sh = List.replicate n c := by
  have go : ∀ m, emaGo sh c (List.replicate m c) = List.replicate m c := by
    intro m
    induction m with
    | zero => rfl
    | succ k ih => simp [List.replicate_succ, emaGo, emaStep_self, ih]
  cases n with
  | zero => rfl
  | succ k => simp [List.replicate_succ, ema_q16, go]

/-- C4: the classifier is an exact three-way signed comparison — greater
gives BUY(+1), less gives SELL(-1), equal gives HOLD(0) — and therefore is
antisymmetric off the diagonal and HOLD on it. -/
theorem classify_exact_antisymm (a b : Int) :
    (a > b → classify a b = 1) ∧ (a < b → classify a b = -1) ∧
    classify a a = 0 ∧ (a ≠ b → classify a b = -classify b a) := by
  refine ⟨fun h => by simp [classify, h], fun h => ?_, by simp [classify], fun h => ?_⟩
  · simp [classify, h, not_lt.mpr h.le, lt_irrefl]
  · rcases lt_trichotomy a b with h1 | h1 | h1
    · simp [classify, h1, not_lt.mpr h1.le]
    · exact absurd h1 h
    · simp [classify, h1, not_lt.mpr h1.le]

/-- Witness for C4 at concrete pairs `(2,1)`, `(1,2)` and `(5,5)`. -/
theorem classify_exact_antisymm_witness :
    classify 2 1 = 1 ∧ classify 1 2 = -1 ∧ classify 5 5 = 0 ∧
    classify 2 1 = -classify 1 2 :=
  ⟨(classify_exact_antisymm 2 1).1 (by decide),
   (classify_exact_antisymm 1 2).2.1 (by decide),
   (classify_exact_antisymm 5 5).2.2.1,
   (classify_exact_antisymm 2 1).2.2.2 (by decide)⟩

/-- The EMA loop emits exactly one output per input. -/
theorem emaGo_length (sh : Nat) (avg : Int) (xs : List Int) :
    (emaGo sh avg xs).length = xs.length := by
  induction xs generalizing avg with
  | nil => rfl
  | cons x xs ih => simp [emaGo, ih]

/-- The EMA emits exactly one output per input price. -/
theorem ema_q16_length (ps : List Int) (sh : Nat) :
    (ema_q16 ps sh).length = ps.length := by
  cases ps with
  | nil => rfl
  | cons x xs => simp [ema_q16, emaGo_length]

/-- C5: for every input price sequence of length N the software signal trace
has exactly N entries whose tick keys are exactly 1, …, N. -/
theorem softwareTrace_length_ticks (ps : List Int) (fsh ssh : Nat) :
    (softwareTrace ps fsh ssh).length = ps.length ∧
    (softwareTrace ps fsh ssh).map Prod.fst = List.range' 1 ps.length := by
  have hsig : (List.zipWith classify (ema_q16 ps fsh) (ema_q16 ps ssh)).length =
      ps.length := by
    simp [List.length_zipWith, ema_q16_length]
  constructor
  · simp [softwareTrace, List.length_zip, List.length_range', hsig]
  · rw [softwareTrace]
    simp only [hsig]
    rw [List.map_fst_zip]
    simp [List.length_range', hsig]

/-- De-duplication removes every row whose tick has already been seen. -/
theorem dedupGo_filter_mem (rows : List (Nat × Int)) :
    ∀ (seen : List Nat) (t : Nat), t ∈ seen →
      (dedupGo seen rows).filter (fun r => r.1 == t) = [] := by
  induction rows with
  | nil => intro seen t _; rfl
  | cons r rest ih =>
      intro seen t ht
      by_cases hr : r.1 ∈ seen
      · simp only [dedupGo, if_pos hr]
        exact ih seen t ht
      · have hne : ¬ (r.1 == t) = true := by
          simp only [beq_iff_eq]
          intro he; exact hr (he ▸ ht)
        simp only [dedupGo, if_neg hr, List.filter_cons]
        rw [if_neg hne]
        exact ih (r.1 :: seen) t (List.mem_cons_of_mem _ ht)

/-- De-duplication keeps exactly the first row of each not-yet-seen tick. -/
theorem dedupGo_filter_not_mem (rows : List (Nat × Int)) :
    ∀ (seen : List Nat) (t : Nat), t ∉ seen →
      (dedupGo seen rows).filter (fun r => r.1 == t) =
        (rows.filter (fun r => r.1 == t)).take 1 := by
  induction rows with
  | nil => intro seen t _; rfl
  | cons r rest ih =>
      intro seen t ht
      by_cases hr : r.1 ∈ seen
      · have hne : ¬ (r.1 == t) = true := by
          simp only [beq_iff_eq]
          intro he; exact ht (he ▸ hr)
        simp only [dedupGo, if_pos hr, List.filter_cons]
        rw [if_neg hne]
        exact ih seen t ht
      · by_cases he : r.1 = t
        · subst he
          simp only [dedupGo, if_neg hr, List.filter_cons, beq_self_eq_true]
          rw [if_pos trivial, if_pos trivial,
            dedupGo_filter_mem rest (r.1 :: seen) r.1 (by simp)]
          simp
        · have hne : ¬ (r.1 == t) = true := by simp [beq_iff_eq, he]
          simp only [dedupGo, if_neg hr, List.filter_cons]
          rw [if_neg hne, if_neg hne]
          refine ih (r.1 :: seen) t ?_
          intro hmem
          rcases List.mem_cons.mp hmem with h | h
          · exact he h.symm
          · exact ht h

/-- C6: the hardware log parser de-duplicates by tick with
first-occurrence-wins — the parsed trace's rows for any tick are exactly the
first raw parsed row for that tick — and decodes code 1 to BUY(+1), code 3
to SELL(-1), and any other code to HOLD(0). -/
theorem read_hw_log_dedup_first (lines : List String) (t : Nat) :
    (read_hw_log lines).filter (fun r => r.1 == t) =
      ((rawRows lines).filter (fun r => r.1 == t)).take 1 ∧
    decodeSignal 1 = 1 ∧ decodeSignal 3 = -1 ∧
    (∀ c : Nat, c ≠ 1 → c ≠ 3 → decodeSignal c = 0) := by
  refine ⟨dedupGo_filter_not_mem (rawRows lines) [] t (by simp), rfl, rfl, ?_⟩
  intro c h1 h3
  simp [decodeSignal, h1, h3]

/-- Witness for C6: a log with two lines for tick 5 carrying different
signal codes parses to the first line's decoded signal only. -/
theorem read_hw_log_dedup_first_witness :
    (read_hw_log ["tick 5 -> signal=1  fast=7", "tick 5 -> signal=3"]).filter
        (fun r => r.1 == 5) = [(5, 1)] ∧
    decodeSignal 2 = 0 := by
  have h := read_hw_log_dedup_first ["tick 5 -> signal=1  fast=7", "tick 5 -> signal=3"] 5
  exact ⟨h.1.trans (by decide), h.2.2.2 2 (by decide) (by decide)⟩

/-- C7 counterexample: on an empty price sequence the software trace is
computed as the empty trace — no distinct empty-input error is raised. -/
theorem softwareTrace_empty_cex :
    softwareTrace [] FAST_SH SLOW_SH = [] := rfl

/-- C7 amended: an empty price sequence yields an empty software trace, and
the run is then reported through the comparator's no-overlap early return
rather than a distinct EmptyInputError. -/
theorem softwareTrace_empty_amended (hw : List (Nat × Int)) (fsh ssh : Nat) :
    softwareTrace [] fsh ssh = [] ∧
    compareTraces hw (softwareTrace [] fsh ssh) = none := by
  refine ⟨rfl, ?_⟩
  have h0 : softwareTrace [] fsh ssh = [] := rfl
  rw [h0, compareTraces]
  have hm : mergeTraces hw [] = [] := by
    simp [mergeTraces, List.filterMap_eq_nil_iff]
  simp [hm]

/-- C8 counterexample: a non-empty log with zero matching lines parses to
the empty trace, and the comparison then takes the same no-overlap early
return as any disjoint pair of traces — no distinct empty-log condition. -/
theorem read_hw_log_no_match_cex :
    read_hw_log ["hello world"] = [] ∧
    compareTraces (read_hw_log ["hello world"]) [(1, 0)] = none := by decide

/-- C8 amended: whenever no line of the log matches the tick pattern, the
parser returns the empty trace and the comparator falls through to its
no-overlap report (whose message also advises checking the log format). -/
theorem read_hw_log_no_match_amended (lines : List String) (sw : List (Nat × Int))
    (h : ∀ l ∈ lines, searchTick l.toList = none) :
    read_hw_log lines = [] ∧ compareTraces (read_hw_log lines) sw = none := by
  have hraw : rawRows lines = [] := by
    rw [rawRows, List.filterMap_eq_nil_iff]
    intro l hl
    rw [h l hl]
    rfl
  have hlog : read_hw_log lines = [] := by rw [read_hw_log, hraw]; rfl
  refine ⟨hlog, ?_⟩
  rw [hlog]
  rfl

/-- Witness for the amended C8 on a concrete non-matching log line. -/
theorem read_hw_log_no_match_amended_witness :
    read_hw_log ["no tick records here"] = [] ∧
    compareTraces (read_hw_log ["no tick records here"]) [(2, 1)] = none :=
  read_hw_log_no_match_amended ["no tick records here"] [(2, 1)] (by decide)

/-- The merged table's tick column is a sublist of the hardware trace's
tick column: the inner merge preserves left-key order. -/
theorem mergeTraces_map_fst_sublist (hw sw : List (Nat × Int)) :
    ((mergeTraces hw sw).map Prod.fst).Sublist (hw.map Prod.fst) := by
  induction hw with
  | nil => exact List.Sublist.refl _
  | cons p rest ih =>
      rw [mergeTraces] at ih ⊢
      rw [List.filterMap_cons]
      cases hlk : sw.lookup p.1 with
      | none =>
          simp only [Option.map_none']
          exact ih.trans (List.sublist_cons_self _ _)
      | some s =>
          simp only [Option.map_some', List.map_cons]
          exact List.Sublist.cons₂ _ ih

/-- C9 counterexample: a hardware log listing tick 3 before tick 2 produces
mismatch records with ticks in order [3, 2], which is not ascending. -/
theorem compare_mismatch_order_cex :
    (compareTraces (read_hw_log ["tick 3 -> signal=0", "tick 2 -> signal=0"])
        (softwareTrace [6553600, 13107200, 13107200] FAST_SH SLOW_SH)).map
      (fun r => r.mismatches.map Prod.fst) = some [3, 2] ∧
    ¬ List.Sorted (· < ·) [3, 2] := by
  constructor
  · decide
  · decide

/-- C9 amended: the mismatch records follow the hardware trace's key order
(the merge keeps left-key order), so they are in strictly ascending tick
order whenever the hardware trace's ticks are strictly ascending. -/
theorem compare_mismatch_hw_order (hw sw : List (Nat × Int)) (r : ParityReport)
    (hc : compareTraces hw sw = some r)
    (hsorted : List.Sorted (· < ·) (hw.map Prod.fst)) :
    List.Sorted (· < ·) (r.mismatches.map Prod.fst) := by
  have hr : r.mismatches =
      (mergeTraces hw sw).filter (fun x => !(x.2.1 == x.2.2)) := by
    simp only [compareTraces] at hc
    by_cases hm : (mergeTraces hw sw).isEmpty
    · rw [if_pos hm] at hc; exact absurd hc (by simp)
    · rw [if_neg hm] at hc
      cases hc
      rfl
  rw [hr]
  have h1 : (((mergeTraces hw sw).filter
        (fun x => !(x.2.1 == x.2.2))).map Prod.fst).Sublist
      ((mergeTraces hw sw).map Prod.fst) :=
    List.Sublist.map Prod.fst (List.filter_sublist _)
  have h2 := mergeTraces_map_fst_sublist hw sw
  exact List.Pairwise.sublist (h1.trans h2) hsorted

/-- Witness for the amended C9 on a concrete ascending hardware trace. -/
theorem compare_mismatch_hw_order_witness :
    List.Sorted (· < ·)
      ((⟨2, 0, [(2, 0, 1), (3, 0, 1)], [(2, 0, 1), (3, 0, 1)]⟩ :
          ParityReport).mismatches.map Prod.fst) :=
  compare_mismatch_hw_order [(2, 0), (3, 0)] [(2, 1), (3, 1)] _ (by decide) (by decide)

/-- One EMA update never overshoots: the new average lies between the old
average and the new input. -/
theorem emaStep_between (avg x : Int) (sh : Nat) :
    min avg x ≤ emaStep avg x sh ∧ emaStep avg x sh ≤ max avg x := by
  have hk : (1 : ℚ) ≤ (2 : ℚ) ^ sh := one_le_pow₀ (by norm_num)
  have hk0 : (0 : ℚ) < (2 : ℚ) ^ sh := by positivity
  have hstep : emaStep avg x sh = avg + ⌊((x - avg : ℤ) : ℚ) / ((2 : ℚ) ^ sh)⌋ := by
    rw [emaStep, shiftRight_eq_floor]
  rcases le_total avg x with hax | hxa
  · have hd : (0 : ℚ) ≤ ((x - avg : ℤ) : ℚ) := by
      exact_mod_cast sub_nonneg.mpr hax
    constructor
    · rw [min_eq_left hax, hstep]
      have h0 : (0 : ℤ) ≤ ⌊((x - avg : ℤ) : ℚ) / (2 : ℚ) ^ sh⌋ :=
        Int.floor_nonneg.mpr (div_nonneg hd hk0.le)
      linarith
    · rw [max_eq_right hax, hstep]
      have h1 : ⌊((x - avg : ℤ) : ℚ) / (2 : ℚ) ^ sh⌋ ≤ x - avg := by
        have hq : ((x - avg : ℤ) : ℚ) / (2 : ℚ) ^ sh ≤ ((x - avg : ℤ) : ℚ) :=
          div_le_self hd hk
        calc ⌊((x - avg : ℤ) : ℚ) / (2 : ℚ) ^ sh⌋ ≤ ⌊((x - avg : ℤ) : ℚ)⌋ :=
              Int.floor_le_floor hq
          _ = x - avg := Int.floor_intCast _
      linarith
  · have hd : ((x - avg : ℤ) : ℚ) ≤ 0 := by
      exact_mod_cast sub_nonpos.mpr hxa
    constructor
    · rw [min_eq_right hxa, hstep]
      have h1 : (x - avg : ℤ) ≤ ⌊((x - avg : ℤ) : ℚ) / (2 : ℚ) ^ sh⌋ := by
        rw [Int.le_floor, le_div_iff₀ hk0]
        have hm := mul_le_mul_of_nonpos_left hk hd
        push_cast at hm ⊢
        linarith
      linarith
    · rw [max_eq_left hxa, hstep]
      have h1 : ⌊((x - avg : ℤ) : ℚ) / (2 : ℚ) ^ sh⌋ ≤ 0 :=
        Int.floor_nonpos (div_nonpos_of_nonpos_of_nonneg hd hk0.le)
      linarith

/-- Every output of the seeded EMA loop stays inside any interval that
contains the seed and all the inputs. -/
theorem emaGo_bounds (sh : Nat) (lo hb : Int) :
    ∀ (xs : List Int) (avg : Int), lo ≤ avg → avg ≤ hb →
      (∀ x ∈ xs, lo ≤ x ∧ x ≤ hb) →
      ∀ a ∈ emaGo sh avg xs, lo ≤ a ∧ a ≤ hb := by
  intro xs
  induction xs with
  | nil => intro avg _ _ _ a ha; cases ha
  | cons x xs ih =>
      intro avg hlo hhi hxs a ha
      have hx := hxs x (by simp)
      have hstep := emaStep_between avg x sh
      have hlo' : lo ≤ emaStep avg x sh := le_trans (le_min hlo hx.1) hstep.1
      have hhi' : emaStep avg x sh ≤ hb := le_trans hstep.2 (max_le hhi hx.2)
      rw [emaGo] at ha
      rcases List.mem_cons.mp ha with h | h
      · exact h ▸ ⟨hlo', hhi'⟩
      · exact ih (emaStep avg x sh) hlo' hhi'
          (fun y hy => hxs y (List.mem_cons_of_mem _ hy)) a h

/-- Taking a prefix of the EMA loop's outputs is the EMA loop of the prefix. -/
theorem emaGo_take (sh : Nat) :
    ∀ (xs : List Int) (avg : Int) (n : Nat),
      (emaGo sh avg xs).take n = emaGo sh avg (xs.take n) := by
  intro xs
  induction xs with
  | nil => intro avg n; simp [emaGo]
  | cons x xs ih =>
      intro avg n
      cases n with
      | zero => simp [emaGo]
      | succ m => simp [emaGo, List.take_succ_cons, ih]

/-- Taking a prefix of the EMA outputs is the EMA of the prefix of inputs. -/
theorem ema_q16_take (ps : List Int) (sh n : Nat) :
    (ema_q16 ps sh).take n = ema_q16 (ps.take n) sh := by
  cases ps with
  | nil => simp [ema_q16]
  | cons p rest =>
      cases n with
      | zero => simp [ema_q16]
      | succ m =>
          simp only [ema_q16, List.take_succ_cons, emaGo_take]

/-- A left fold of `min` is bounded by its initial value. -/
theorem foldl_min_le_init (l : List Int) : ∀ a : Int, l.foldl min a ≤ a := by
  induction l with
  | nil => intro a; exact le_refl a
  | cons x xs ih => intro a; exact le_trans (ih (min a x)) (min_le_left a x)

/-- A left fold of `min` is bounded by every member of the list. -/
theorem foldl_min_le_mem (l : List Int) : ∀ (a x : Int), x ∈ l → l.foldl min a ≤ x := by
  induction l with
  | nil => intro a x hx; cases hx
  | cons y ys ih =>
      intro a x hx
      rcases List.mem_cons.mp hx with h | h
      · subst h; exact le_trans (foldl_min_le_init ys (min a x)) (min_le_right a x)
      · exact ih (min a y) x h

/-- A left fold of `max` dominates its initial value. -/
theorem init_le_foldl_max (l : List Int) : ∀ a : Int, a ≤ l.foldl max a := by
  induction l with
  | nil => intro a; exact le_refl a
  | cons x xs ih => intro a; exact le_trans (le_max_left a x) (ih (max a x))

/-- A left fold of `max` dominates every member of the list. -/
theorem mem_le_foldl_max (l : List Int) : ∀ (a x : Int), x ∈ l → x ≤ l.foldl max a := by
  induction l with
  | nil => intro a x hx; cases hx
  | cons y ys ih =>
      intro a x hx
      rcases List.mem_cons.mp hx with h | h
      · subst h; exact le_trans (le_max_right a x) (init_le_foldl_max ys (max a x))
      · exact ih (max a y) x h

/-- Every output of the exact-integer EMA lies between the minimum and the
maximum of the inputs processed so far. -/
theorem ema_q16_within_envelope (p : Int) (rest : List Int) (sh i : Nat)
    (hi : i < (ema_q16 (p :: rest) sh).length) :
    ((p :: rest).take (i + 1)).foldl min p ≤
        (ema_q16 (p :: rest) sh).get ⟨i, hi⟩ ∧
    (ema_q16 (p :: rest) sh).get ⟨i, hi⟩ ≤
        ((p :: rest).take (i + 1)).foldl max p := by
  have hpre : (p :: rest).take (i + 1) = p :: rest.take i := List.take_succ_cons
  have hlo : ((p :: rest).take (i + 1)).foldl min p = (rest.take i).foldl min p := by
    rw [hpre, List.foldl_cons, min_self]
  have hhi : ((p :: rest).take (i + 1)).foldl max p = (rest.take i).foldl max p := by
    rw [hpre, List.foldl_cons, max_self]
  have hlt : i < ((ema_q16 (p :: rest) sh).take (i + 1)).length := by
    rw [List.length_take]
    exact lt_min (Nat.lt_succ_self i) hi
  have hval : ((ema_q16 (p :: rest) sh).take (i + 1)).get ⟨i, hlt⟩ =
      (ema_q16 (p :: rest) sh).get ⟨i, hi⟩ := by
    simp [List.getElem_take]
  have hmem : (ema_q16 (p :: rest) sh).get ⟨i, hi⟩ ∈
      ema_q16 ((p :: rest).take (i + 1)) sh := by
    rw [← ema_q16_take]
    exact hval ▸ List.get_mem _ i hlt
  rw [hpre] at hmem
  simp only [ema_q16] at hmem
  rcases List.mem_cons.mp hmem with h | h
  · have h' : (ema_q16 (p :: rest) sh).get ⟨i, hi⟩ = p := h
    rw [h', hlo, hhi]
    exact ⟨foldl_min_le_init _ p, init_le_foldl_max _ p⟩
  · have h' : (ema_q16 (p :: rest) sh).get ⟨i, hi⟩ ∈ emaGo sh p (rest.take i) := h
    rw [hlo, hhi]
    exact emaGo_bounds sh ((rest.take i).foldl min p) ((rest.take i).foldl max p)
      (rest.take i) p (foldl_min_le_init _ p) (init_le_foldl_max _ p)
      (fun y hy => ⟨foldl_min_le_mem _ p y hy, mem_le_foldl_max _ p y hy⟩) _ h'

/-- Values in half the int64 range are int64 values. -/
theorem inHalf_inInt64 (z : Int) (h : inHalf z) : inInt64 z := by
  obtain ⟨h1, h2⟩ := h
  exact ⟨le_trans (by norm_num) h1, lt_of_le_of_lt h2 (by norm_num)⟩

/-- An exact EMA update of half-range operands stays in the half range. -/
theorem emaStep_inHalf (avg x : Int) (sh : Nat) (ha : inHalf avg)
    (hx : inHalf x) : inHalf (emaStep avg x sh) := by
  have hb := emaStep_between avg x sh
  obtain ⟨ha1, ha2⟩ := ha
  obtain ⟨hx1, hx2⟩ := hx
  constructor
  · have hm : -(2 ^ 62 : Int) ≤ min avg x := le_min ha1 hx1
    linarith [hb.1]
  · have hm : max avg x ≤ (2 ^ 62 - 1 : Int) := max_le ha2 hx2
    linarith [hb.2]

/-- On half-range operands the wrapping update computes the exact one:
neither the delta subtraction nor the final addition can overflow. -/
theorem emaStep64_eq_exact (avg x : Int) (sh : Nat) (ha : inHalf avg)
    (hx : inHalf x) : emaStep64 avg x sh = emaStep avg x sh := by
  obtain ⟨ha1, ha2⟩ := ha
  obtain ⟨hx1, hx2⟩ := hx
  have hd : inInt64 (x - avg) := by
    constructor
    · have hp : -(2 ^ 63 : Int) + 1 = -(2 ^ 62) - (2 ^ 62 - 1) := by norm_num
      linarith
    · have hp : (2 ^ 63 - 1 : Int) = (2 ^ 62 - 1) - -(2 ^ 62) := by norm_num
      linarith
  have hs : inInt64 (emaStep avg x sh) :=
    inHalf_inInt64 _ (emaStep_inHalf avg x sh ⟨ha1, ha2⟩ ⟨hx1, hx2⟩)
  rw [emaStep64, wrap64_eq_self _ hd]
  exact wrap64_eq_self _ hs

/-- On half-range inputs the wrapping EMA loop computes the exact one. -/
theorem emaGo64_eq_exact (sh : Nat) :
    ∀ (xs : List Int) (avg : Int), inHalf avg → (∀ y ∈ xs, inHalf y) →
      emaGo64 sh avg xs = emaGo sh avg xs := by
  intro xs
  induction xs with
  | nil => intro avg _ _; rfl
  | cons x xs ih =>
      intro avg ha hxs
      have hx := hxs x (by simp)
      have hstep := emaStep64_eq_exact avg x sh ha hx
      rw [emaGo64, emaGo, hstep,
        ih (emaStep avg x sh) (emaStep_inHalf avg x sh ha hx)
          (fun y hy => hxs y (List.mem_cons_of_mem _ hy))]

/-- On input sequences inside half the int64 range — all Q16.16 price data
by a wide margin — the wrapping program equals the exact-integer model. -/
theorem ema_q16_i64_eq_exact (ps : List Int) (sh : Nat)
    (h : ∀ y ∈ ps, inHalf y) : ema_q16_i64 ps sh = ema_q16 ps sh := by
  cases ps with
  | nil => rfl
  | cons p rest =>
      simp only [ema_q16_i64, ema_q16]
      rw [emaGo64_eq_exact sh rest p (h p (by simp))
        (fun y hy => h y (List.mem_cons_of_mem _ hy))]

/-- Indexing transports along an equality of lists. -/
theorem get_congr_of_eq {l l' : List Int} (h : l = l') (i : Nat)
    (hi : i < l.length) : l.get ⟨i, hi⟩ = l'.get ⟨i, h ▸ hi⟩ := by
  subst h
  rfl

/-- C10 counterexample: on the int64 input sequence `[2^62, -2^62 - 2]`
with shift 1 the program's second running average is `2^63 - 1` — the delta
subtraction wraps — which lies far above the maximum input `2^62`. -/
theorem ema_envelope_wrap_cex :
    ema_q16_i64 [(2 : Int) ^ 62, -(2 : Int) ^ 62 - 2] 1 =
      [(2 : Int) ^ 62, 2 ^ 63 - 1] ∧
    ¬ ((ema_q16_i64 [(2 : Int) ^ 62, -(2 : Int) ^ 62 - 2] 1).get ⟨1, by decide⟩ ≤
        (([(2 : Int) ^ 62, -(2 : Int) ^ 62 - 2]).take (1 + 1)).foldl max
          ((2 : Int) ^ 62)) := by
  refine ⟨by decide, by decide⟩

/-- C10 amended: for every input sequence whose values lie in half the
int64 range — where no update of the wrapping program can overflow — each
update moves the average toward the new input without overshooting it, and
every running average lies between the minimum and the maximum of the
inputs processed so far. -/
theorem ema_within_input_envelope_i64 :
    (∀ (avg x : Int) (sh : Nat), inHalf avg → inHalf x →
        min avg x ≤ emaStep64 avg x sh ∧ emaStep64 avg x sh ≤ max avg x) ∧
    (∀ (p : Int) (rest : List Int) (sh i : Nat),
        inHalf p → (∀ y ∈ rest, inHalf y) →
        ∀ (hi : i < (ema_q16_i64 (p :: rest) sh).length),
        ((p :: rest).take (i + 1)).foldl min p ≤
            (ema_q16_i64 (p :: rest) sh).get ⟨i, hi⟩ ∧
        (ema_q16_i64 (p :: rest) sh).get ⟨i, hi⟩ ≤
            ((p :: rest).take (i + 1)).foldl max p) := by
  constructor
  · intro avg x sh ha hx
    rw [emaStep64_eq_exact avg x sh ha hx]
    exact emaStep_between avg x sh
  · intro p rest sh i hp hrest hi
    have heq : ema_q16_i64 (p :: rest) sh = ema_q16 (p :: rest) sh := by
      refine ema_q16_i64_eq_exact (p :: rest) sh ?_
      intro y hy
      rcases List.mem_cons.mp hy with h | h
      · exact h ▸ hp
      · exact hrest y h
    rw [get_congr_of_eq heq i hi]
    exact ema_q16_within_envelope p rest sh i (heq ▸ hi)

/-- Witness for the amended C10 on the concrete half-range input sequence
`[0, 64]` with shift 1. -/
theorem ema_within_input_envelope_i64_witness :
    (([(0 : Int), 64]).take (1 + 1)).foldl min 0 ≤
      (ema_q16_i64 [(0 : Int), 64] 1).get ⟨1, by decide⟩ ∧
    (ema_q16_i64 [(0 : Int), 64] 1).get ⟨1, by decide⟩ ≤
      (([(0 : Int), 64]).take (1 + 1)).foldl max 0 :=
  ema_within_input_envelope_i64.2 0 [64] 1 1 (by decide) (by decide) (by decide)

end CheckMatch
